import Mathlib

/-!
Verification of the Mann-Kendall trend statistics implemented in
watershed_monitoring/tsa/trend.py.

Conventions of the embedding:

* Observations are embedded as rational numbers (`ℚ`); the source operates on
  Python/NumPy floats, which this development idealizes as exact arithmetic.
* `np.sign` on a scalar is embedded as `np_sign : ℚ → ℤ`.
* Results that involve `np.sqrt` (the standardized statistic `Z`) live in `ℝ`
  via `Real.sqrt`.
* The standard normal CDF `norm.cdf` is an external collaborator of the
  module (scipy); functions that consume it take it as an explicit argument
  `phi : ℝ → ℝ`.
* Python exceptions are embedded with `Except PyErr` where the source can
  raise; a Python function body that ends without a return statement yields
  `None`, embedded by a dedicated constructor where it matters
  (`CNSResult.noneReturn`).
-/

/-- Python exceptions that the embedded fragments of trend.py can raise. -/
inductive PyErr where
  | zeroDivision
  | unboundLocal
  deriving DecidableEq

/-- Embedding of numpy's sign function applied to a scalar difference:
1 for positive, -1 for negative, 0 for zero. -/
def np_sign (q : ℚ) : ℤ :=
  if 0 < q then 1 else if q < 0 then -1 else 0

/-- Embeds mk_score (trend.py:191-229): `s = 0`, then
for j in np.arange(1, n): `s += np.sum(np.sign(x[j] - x[0:j]))`,
i.e. the signs of the differences of x[j] against every earlier entry. -/
def mk_score (x : List ℚ) : ℤ :=
  ∑ j in Finset.Ico 1 x.length, ∑ i in Finset.range j, np_sign (x.getD j 0 - x.getD i 0)

/-- Definition following the spec's words (for comparison with `mk_score`):
the sum over all index pairs i < j of sign(x[j] - x[i]). -/
def spec_score (x : List ℚ) : ℤ :=
  ∑ p in (Finset.range x.length ×ˢ Finset.range x.length).filter (fun p => p.1 < p.2),
    np_sign (x.getD p.2 0 - x.getD p.1 0)

/-- Embeds mk_score_variance (trend.py:232-280).  `np.unique` returns the
sorted distinct values of x; only its length and the multiset of the counts
`tp[i] = sum(x == unique_x[i])` are consumed below, both of which are
order-independent, so the unique values are embedded as `List.dedup`
(first-occurrence order).  When `n == g` (no tie) the variance is
n(n-1)(2n+5)/18, otherwise the tie-correction sum
`np.sum(tp*(tp-1)*(2*tp+5))` is subtracted before dividing by 18. -/
def mk_score_variance (x : List ℚ) : ℚ :=
  let n := x.length
  let unique_x := x.dedup
  let g := unique_x.length
  if n = g then
    ((n : ℚ) * ((n : ℚ) - 1) * (2 * (n : ℚ) + 5)) / 18
  else
    let tp := unique_x.map (fun u => ((x.count u : ℕ) : ℚ))
    (((n : ℚ) * ((n : ℚ) - 1) * (2 * (n : ℚ) + 5)) -
      (tp.map (fun t => t * (t - 1) * (2 * t + 5))).sum) / 18

/-- Sizes of the groups of repeated values of x (the tie groups q_k of the
spec): the count of each distinct value, kept only when at least 2. -/
def tie_group_sizes (x : List ℚ) : List ℕ :=
  (x.dedup.map (fun u => x.count u)).filter (fun q => 2 ≤ q)

/-- Definition following the spec's words (for comparison with
`mk_score_variance`): n(n-1)(2n+5) minus the sum over tie groups of
q_k(q_k-1)(2q_k+5), divided by 18. -/
def spec_score_variance (x : List ℚ) : ℚ :=
  let n := x.length
  (((n : ℚ) * ((n : ℚ) - 1) * (2 * (n : ℚ) + 5)) -
    ((tie_group_sizes x).map (fun q : ℕ => (q : ℚ) * ((q : ℚ) - 1) * (2 * (q : ℚ) + 5))).sum) / 18

/-- Embeds mk_z (trend.py:165-188): `(s - 1)/np.sqrt(var_s)` if s > 0,
`(s + 1)/np.sqrt(var_s)` if s < 0, else 0.  The function performs no
validation of var_s; when var_s ≤ 0 the source evaluates the same branch
formula under IEEE semantics (inf/nan) without raising, which this real-number
embedding renders with Mathlib's total `Real.sqrt` and division. -/
noncomputable def mk_z (s var_s : ℝ) : ℝ :=
  if 0 < s then (s - 1) / Real.sqrt var_s
  else if s < 0 then (s + 1) / Real.sqrt var_s
  else 0

/-- Embeds kendall (trend.py:283-341).  The local `n = len(x)` of the source
is never used and no length validation is performed; the parameter alpha is
accepted and never read.  `phi` stands for the external `norm.cdf`. -/
noncomputable def kendall (phi : ℝ → ℝ) (x : List ℚ) (alpha : ℚ := 1/20) : ℝ × ℝ :=
  let s := mk_score x
  let var_s := mk_score_variance x
  let z := mk_z ((s : ℤ) : ℝ) ((var_s : ℚ) : ℝ)
  let p := 2 * (1 - phi |z|)
  (z, p)

/-- One pass of the loop of seasonal_kendall (trend.py:431-436), iterated
`period` times.  Each iteration computes the slice `x_season = x[period::period]`
into a variable that is never read, adds the full-series `mk_score(x)` to every
entry of the accumulator array `s = np.zeros(period)` (all entries stay equal,
so a single `ℚ` accumulator represents them), and then executes
`var_s += mk_score_variance(x)` — but `var_s` is never initialized in the
source, so this read raises UnboundLocalError.  `var_s` is embedded as an
`Option ℚ` that starts out `none` (unbound). -/
def sk_loop (x : List ℚ) : ℕ → ℚ → Option ℚ → Except PyErr (ℚ × Option ℚ)
  | 0, s, v => .ok (s, v)
  | k + 1, s, v =>
    match v with
    | none => .error .unboundLocal
    | some vv => sk_loop x k (s + ((mk_score x : ℤ) : ℚ)) (some (vv + mk_score_variance x))

/-- Embeds seasonal_kendall (trend.py:343-444).  After the loop the source
computes `z = mk_z(s, var_s)` — reading `var_s` again, still unbound when the
loop body never ran — and `p = 2*(1 - norm.cdf(abs(z)))`. -/
noncomputable def seasonal_kendall (phi : ℝ → ℝ) (x : List ℚ) (period : ℕ := 12) :
    Except PyErr (ℝ × ℝ) :=
  match sk_loop x period 0 none with
  | .error e => .error e
  | .ok (_, none) => .error .unboundLocal
  | .ok (s, some v) =>
    let z := mk_z ((s : ℚ) : ℝ) ((v : ℚ) : ℝ)
    .ok (z, 2 * (1 - phi |z|))

/-- Embeds ar1_trend_correction (trend.py:121-162):
`c = (1+rho)/(1-rho)`, a Python float division that raises ZeroDivisionError
when `1 - rho == 0`; when the sample size n is supplied,
`c -= (2/n)*(rho*(1-rho**n))/((1-rho)**2)`, where `2/n` raises
ZeroDivisionError when n is 0. -/
def ar1_trend_correction (rho : ℚ) (n : Option ℕ) : Except PyErr ℚ :=
  if 1 - rho = 0 then .error .zeroDivision
  else
    let c := (1 + rho) / (1 - rho)
    match n with
    | none => .ok c
    | some k =>
      if k = 0 then .error .zeroDivision
      else .ok (c - (2 / (k : ℚ)) * (rho * (1 - rho ^ k)) / ((1 - rho) ^ 2))

/-- Search state of check_num_samples (trend.py:598-607): the candidate n, the
last detection probability P_d, the cycle counter, and the bookkeeping of the
closest probability seen and the extreme candidates visited. -/
structure CNSState where
  n : ℤ
  P_d : ℚ
  cycle_num : ℕ
  min_diff : ℚ
  best_P_d : ℚ
  max_n : ℤ
  min_n : ℤ
  max_n_cycle : ℕ
  min_n_cycle : ℕ
  deriving DecidableEq

/-- Outcome of check_num_samples: a `return n` statement, the fall-through of
the while loop (Python returns None), or the `raise ValueError` when n
reaches 0. -/
inductive CNSResult where
  | samples (n : ℤ)
  | noneReturn
  | valueError
  deriving DecidableEq

/-- Embeds the while loop of check_num_samples (trend.py:616-673).
The guard is `abs(P_d - power) > tol and cycle_num < num_cycles`; when it
fails the loop ends and the function body ends with it, so Python returns
None (`CNSResult.noneReturn`).

The loop body increments cycle_num and computes the cycle's detection
fraction `P_d = count_of_trend_detections / num_iter`.  The source computes
it with `for i in xrange(num_iter): ... mk_test(x, alpha)` over
`np.random.normal` draws — `xrange` and `mk_test` are not defined anywhere in
the module, and the draw uses ambient global random state.  That missing body
is modelled from the spec (section 4.5 Transition): an injected oracle
`sim cycle n` gives the fraction of the num_iter simulated series of length n
flagged significant in that cycle.

The remainder of the body follows the source statement by statement: the
tolerance return, the closest-probability bookkeeping, the
max/min/cycling if-elif chain, and the final step that increments or
decrements n, raising ValueError when n reaches 0. -/
def cns_loop (sim : ℕ → ℤ → ℚ) (power tol : ℚ) (num_cycles m : ℕ) (st : CNSState) :
    CNSResult :=
  if h : tol < |st.P_d - power| ∧ st.cycle_num < num_cycles then
    let cyc := st.cycle_num + 1
    let pd := sim cyc st.n
    -- if abs(P_d - power) < tol: return n
    if |pd - power| < tol then .samples st.n
    else
      -- if min_diff_P_d_and_power > abs(P_d - power): update min_diff, best_P_d
      let md := if |pd - power| < st.min_diff then |pd - power| else st.min_diff
      let bp := if |pd - power| < st.min_diff then pd else st.best_P_d
      -- if n > max_n and ... / elif n < min_n and ... / elif (cycling): return n
      let upd : Option (ℤ × ℕ × ℤ × ℕ) :=
        if st.n > st.max_n ∧ |bp - pd| < tol then
          some (st.n, cyc, st.min_n, st.min_n_cycle)
        else if st.n < st.min_n ∧ |bp - pd| < tol then
          some (st.max_n, st.max_n_cycle, st.n, cyc)
        else if (|st.max_n - st.n| = 0 ∧ (m : ℤ) ≤ (cyc : ℤ) - (st.max_n_cycle : ℤ)) ∨
                (|st.min_n - st.n| = 0 ∧ (m : ℤ) ≤ (cyc : ℤ) - (st.min_n_cycle : ℤ)) then
          none
        else
          some (st.max_n, st.max_n_cycle, st.min_n, st.min_n_cycle)
      match upd with
      | none => .samples st.n
      | some (mxn, mxc, mnn, mnc) =>
        -- if P_d < power: n += 1 else: n -= 1; if n == 0: raise ValueError
        if pd < power then
          cns_loop sim power tol num_cycles m
            ⟨st.n + 1, pd, st.cycle_num + 1, md, bp, mxn, mnn, mxc, mnc⟩
        else if st.n - 1 = 0 then .valueError
        else
          cns_loop sim power tol num_cycles m
            ⟨st.n - 1, pd, st.cycle_num + 1, md, bp, mxn, mnn, mxc, mnc⟩
  else
    .noneReturn
termination_by num_cycles - st.cycle_num
decreasing_by
  all_goals exact Nat.sub_lt_sub_left h.2 (Nat.lt_succ_self st.cycle_num)

/-- Embeds check_num_samples (trend.py:557-673).  `power = 1.0 - beta`;
P_d, cycle_num start at 0; min_diff_P_d_and_power = abs(P_d - power);
best_P_d = P_d; max_n = min_n = n; max_n_cycle = min_n_cycle = 1.  The
parameters delta, std_dev, alpha and num_iter configure only the Monte-Carlo
body, which is folded into the oracle `sim` (see `cns_loop`); the print calls
are side effects outside the returned value. -/
def check_num_samples (sim : ℕ → ℤ → ℚ) (beta delta std_dev : ℚ)
    (alpha : ℚ := 1/20) (n : ℤ := 4) (num_iter : ℕ := 1000)
    (tol : ℚ := 1/1000000) (num_cycles : ℕ := 10000) (m : ℕ := 5) : CNSResult :=
  let power := 1 - beta
  cns_loop sim power tol num_cycles m
    { n := n, P_d := 0, cycle_num := 0, min_diff := |0 - power|, best_P_d := 0,
      max_n := n, min_n := n, max_n_cycle := 1, min_n_cycle := 1 }

/-! ## Helper lemmas -/

theorem mk_score_of_short (x : List ℚ) (h : x.length ≤ 1) : mk_score x = 0 := by
  rw [mk_score]
  have he : Finset.Ico 1 x.length = ∅ := by
    apply Finset.Ico_eq_empty
    omega
  rw [he, Finset.sum_empty]

theorem mk_score_variance_of_short (x : List ℚ) (h : x.length ≤ 1) :
    mk_score_variance x = 0 := by
  match x with
  | [] => norm_num [mk_score_variance]
  | [a] => norm_num [mk_score_variance, List.dedup_cons_of_not_mem]
  | a :: b :: t => simp at h

/-! ## Claim theorems -/

/-- C9: the alpha parameter of kendall has no influence on its result: the
source accepts alpha and never reads it, so any two significance levels give
the identical (z, p) pair. -/
theorem kendall_alpha_irrelevant (phi : ℝ → ℝ) (x : List ℚ) (a1 a2 : ℚ) :
    kendall phi x a1 = kendall phi x a2 := rfl

/-- C3 (code bug, evaluated at the failing input): seasonal_kendall on
x = [1, 2, 3, 4] with period = 2 does not partition x into per-season
sub-series; its loop reads the never-initialized local var_s and raises
UnboundLocalError. -/
theorem seasonal_kendall_unbound_local :
    seasonal_kendall (fun _ => (1 : ℝ)/2) [1, 2, 3, 4] 2 = .error .unboundLocal := rfl

/-- C4 counterexample: at S = 1 (an integer score with Var(S) = 1 > 0,
reachable e.g. from x = [1, 2]), mk_z returns (1-1)/sqrt(1) = 0, so
sign(Z) = 0 differs from sign(S) = 1: the claimed sign(Z) == sign(S) for all
S different from 0 is false. -/
theorem mk_z_sign_mismatch :
    mk_z ((1 : ℤ) : ℝ) 1 = 0 ∧
      Real.sign (mk_z ((1 : ℤ) : ℝ) 1) ≠ (((1 : ℤ).sign : ℤ) : ℝ) := by
  have h0 : mk_z ((1 : ℤ) : ℝ) 1 = 0 := by norm_num [mk_z]
  refine ⟨h0, ?_⟩
  rw [h0, Real.sign_zero, show (1 : ℤ).sign = 1 from rfl]
  norm_num

/-- C4 amended: for integer S and VarS > 0, mk_z returns (S-1)/sqrt(VarS) if
S > 0, (S+1)/sqrt(VarS) if S < 0, and exactly 0 if S = 0; sign(Z) = sign(S)
holds whenever |S| is at least 2, while |S| = 1 yields Z = 0. -/
theorem mk_z_amended (s : ℤ) (v : ℝ) (hv : 0 < v) :
    (0 < s → mk_z (s : ℝ) v = ((s : ℝ) - 1) / Real.sqrt v) ∧
    (s < 0 → mk_z (s : ℝ) v = ((s : ℝ) + 1) / Real.sqrt v) ∧
    (s = 0 → mk_z (s : ℝ) v = 0) ∧
    (2 ≤ s → 0 < mk_z (s : ℝ) v) ∧
    (s ≤ -2 → mk_z (s : ℝ) v < 0) ∧
    ((s = 1 ∨ s = -1) → mk_z (s : ℝ) v = 0) := by
  have hsq : 0 < Real.sqrt v := Real.sqrt_pos.mpr hv
  refine ⟨?_, ?_, ?_, ?_, ?_, ?_⟩
  · intro hs
    have h1 : (0 : ℝ) < (s : ℝ) := by exact_mod_cast hs
    simp only [mk_z]
    rw [if_pos h1]
  · intro hs
    have h1 : (s : ℝ) < 0 := by exact_mod_cast hs
    simp only [mk_z]
    rw [if_neg (not_lt.mpr h1.le), if_pos h1]
  · intro hs
    subst hs
    simp only [mk_z]
    norm_num
  · intro hs
    have h1 : (0 : ℝ) < (s : ℝ) := by exact_mod_cast (by omega : (0 : ℤ) < s)
    have h2 : (2 : ℝ) ≤ (s : ℝ) := by exact_mod_cast hs
    simp only [mk_z]
    rw [if_pos h1]
    apply div_pos (by linarith) hsq
  · intro hs
    have h1 : (s : ℝ) < 0 := by exact_mod_cast (by omega : s < (0 : ℤ))
    have h2 : (s : ℝ) ≤ -2 := by exact_mod_cast hs
    simp only [mk_z]
    rw [if_neg (not_lt.mpr h1.le), if_pos h1]
    apply div_neg_of_neg_of_pos (by linarith) hsq
  · rintro (rfl | rfl)
    · simp only [mk_z]
      norm_num
    · simp only [mk_z]
      norm_num

/-- Witness for C4's amended theorem at S = 2, VarS = 4. -/
theorem mk_z_amended_witness : 0 < mk_z ((2 : ℤ) : ℝ) 4 :=
  (mk_z_amended 2 4 (by norm_num)).2.2.2.1 (by norm_num)

/-- C5 counterexample: at S = 5, VarS = 0 the source takes the S > 0 branch
and evaluates (S-1)/np.sqrt(VarS) — returning a float (IEEE inf) — rather
than raising any DomainError. -/
theorem mk_z_no_guard_cex : mk_z 5 0 = (5 - 1) / Real.sqrt 0 := by
  simp only [mk_z]
  rw [if_pos (by norm_num : (0 : ℝ) < 5)]

/-- C5 amended: mk_z performs no domain validation: for VarS ≤ 0 and S ≠ 0 it
still evaluates the selected branch formula (S∓1)/sqrt(VarS) and returns that
value (IEEE inf or nan in the source's float semantics) instead of failing
with a DomainError. -/
theorem mk_z_no_guard (s v : ℝ) (hv : v ≤ 0) (hs : s ≠ 0) :
    mk_z s v = if 0 < s then (s - 1) / Real.sqrt v else (s + 1) / Real.sqrt v := by
  simp only [mk_z]
  by_cases h : 0 < s
  · rw [if_pos h, if_pos h]
  · rw [if_neg h, if_neg h, if_pos (lt_of_le_of_ne (not_lt.mp h) hs)]

/-- Witness for C5's amended theorem at S = -3, VarS = 0. -/
theorem mk_z_no_guard_witness : mk_z (-3) 0 = (-3 + 1) / Real.sqrt 0 := by
  have h := mk_z_no_guard (-3) 0 le_rfl (by norm_num)
  rwa [if_neg (by norm_num : ¬ (0 : ℝ) < -3)] at h

/-- C8: ar1_trend_correction returns (1+rho)/(1-rho) when n is omitted and
the finite-sample-corrected value when a positive n is supplied, for any rho
in (-1, 1); at rho = 1 the division 2/(1-rho) raises (ZeroDivisionError, the
DomainError of the spec) for every n. -/
theorem ar1_correction_spec :
    (∀ rho : ℚ, -1 < rho → rho < 1 →
      ar1_trend_correction rho none = .ok ((1 + rho) / (1 - rho)) ∧
      ∀ k : ℕ, 0 < k →
        ar1_trend_correction rho (some k) =
          .ok ((1 + rho) / (1 - rho) - (2 / (k : ℚ)) * (rho * (1 - rho ^ k)) / ((1 - rho) ^ 2))) ∧
    (∀ n : Option ℕ, ar1_trend_correction 1 n = .error .zeroDivision) := by
  constructor
  · intro rho h1 h2
    have hne : ¬(1 - rho = 0) := by
      intro h
      have : rho = 1 := by linarith
      exact absurd this (ne_of_lt h2)
    constructor
    · simp only [ar1_trend_correction]
      rw [if_neg hne]
    · intro k hk
      simp only [ar1_trend_correction]
      rw [if_neg hne]
      simp only [if_neg (by omega : ¬ k = 0)]
  · intro n
    simp only [ar1_trend_correction]
    rw [if_pos (by norm_num)]

/-- Witness for C8 at rho = 1/2: the base coefficient is 3 and the n = 2
finite-sample correction gives 3/2. -/
theorem ar1_correction_witness :
    ar1_trend_correction (1/2) none = .ok 3 ∧
      ar1_trend_correction (1/2) (some 2) = .ok (3/2) := by
  have h := ar1_correction_spec.1 (1/2) (by norm_num) (by norm_num)
  constructor
  · rw [h.1]
    norm_num
  · rw [h.2 2 (by norm_num)]
    norm_num

set_option maxHeartbeats 2000000 in
theorem cns_loop_of_guard_false (sim : ℕ → ℤ → ℚ) (power tol : ℚ) (num_cycles m : ℕ)
    (st : CNSState) (h : ¬(tol < |st.P_d - power| ∧ st.cycle_num < num_cycles)) :
    cns_loop sim power tol num_cycles m st = .noneReturn := by
  rw [cns_loop]
  exact dif_neg h

/-- C7 (code bug, evaluated at the failing input): when the loop guard fails
before any terminal return is reached — here num_cycles = 0 with
beta = 1/5, delta = 1, std_dev = 1/10 and the source defaults for the rest —
the while loop of check_num_samples ends and the function falls off its end,
returning Python None instead of the current candidate n = 4.  The detection
oracle is never consulted on this path. -/
theorem check_num_samples_falls_through :
    check_num_samples (fun _ _ => 0) (1/5) 1 (1/10) (1/20) 4 1000 (1/1000000) 0 5 =
      .noneReturn := by
  simp only [check_num_samples]
  apply cns_loop_of_guard_false
  simp

/-- C6 counterexample: kendall on the length-1 series [5] (with the standard
normal CDF instantiated at a function with phi(0) = 1/2, its true value)
returns the numeric pair (0, 1) — it raises no InputError for series shorter
than 2. -/
theorem kendall_short_returns_value :
    kendall (fun _ => (1 : ℝ)/2) [5] (1/20) = (0, 1) := by
  have hs : mk_score [(5 : ℚ)] = 0 := mk_score_of_short [5] (by norm_num)
  have hv : mk_score_variance [(5 : ℚ)] = 0 := mk_score_variance_of_short [5] (by norm_num)
  have hz : mk_z ((0 : ℤ) : ℝ) ((0 : ℚ) : ℝ) = 0 := by norm_num [mk_z]
  simp only [kendall, hs, hv, hz]
  norm_num

/-- C6 amended: kendall performs no length validation and never fails: for
every series x and alpha it returns the pair obtained by composing mk_score,
mk_score_variance, mk_z and the two-tailed p-value formula; in particular a
series of length < 2 yields S = 0, Var(S) = 0, hence Z = 0 and
p = 2(1 - phi(0)), instead of the claimed InputError. -/
theorem kendall_composition :
    (∀ (phi : ℝ → ℝ) (x : List ℚ) (alpha : ℚ),
      kendall phi x alpha =
        (mk_z ((mk_score x : ℤ) : ℝ) ((mk_score_variance x : ℚ) : ℝ),
         2 * (1 - phi |mk_z ((mk_score x : ℤ) : ℝ) ((mk_score_variance x : ℚ) : ℝ)|))) ∧
    (∀ (phi : ℝ → ℝ) (x : List ℚ) (alpha : ℚ), x.length < 2 →
      kendall phi x alpha = (0, 2 * (1 - phi 0))) := by
  constructor
  · intro phi x alpha
    rfl
  · intro phi x alpha h
    have hs : mk_score x = 0 := mk_score_of_short x (by omega)
    have hv : mk_score_variance x = 0 := mk_score_variance_of_short x (by omega)
    have hz : mk_z ((0 : ℤ) : ℝ) ((0 : ℚ) : ℝ) = 0 := by norm_num [mk_z]
    simp only [kendall, hs, hv, hz]
    norm_num

/-- Witness for C6's amended theorem: the empty series gives (0, 2) when the
CDF is instantiated at the zero function. -/
theorem kendall_composition_witness :
    kendall (fun _ => (0 : ℝ)) [] 0 = (0, 2) := by
  have h := kendall_composition.2 (fun _ => (0 : ℝ)) [] 0 (by simp)
  simpa using h

/-- C10: mk_score_variance is invariant under permutation of its input: it
depends only on the length of the series and on the counts of each distinct
value, all preserved by permutation. -/
theorem mk_score_variance_perm_invariant (x y : List ℚ) (h : x.Perm y) :
    mk_score_variance x = mk_score_variance y := by
  have hn : x.length = y.length := h.length_eq
  have hg : x.dedup.length = y.dedup.length := h.dedup.length_eq
  have hcount : (fun u => ((x.count u : ℕ) : ℚ)) = (fun u => ((y.count u : ℕ) : ℚ)) := by
    funext u
    rw [List.Perm.count_eq h]
  simp only [mk_score_variance]
  rw [hn, hg, hcount]
  have hs : ((x.dedup.map (fun u => ((y.count u : ℕ) : ℚ))).map
        (fun t => t * (t - 1) * (2 * t + 5))).sum
      = ((y.dedup.map (fun u => ((y.count u : ℕ) : ℚ))).map
        (fun t => t * (t - 1) * (2 * t + 5))).sum :=
    List.Perm.sum_eq (List.Perm.map _ (List.Perm.map _ h.dedup))
  rw [hs]

/-- Witness for C10 on the permutation [1, 2, 2] ~ [2, 1, 2]. -/
theorem mk_score_variance_perm_witness :
    mk_score_variance [1, 2, 2] = mk_score_variance [2, 1, 2] :=
  mk_score_variance_perm_invariant [1, 2, 2] [2, 1, 2] (by decide)

theorem count_one_le_of_mem_dedup (x : List ℚ) (u : ℚ) (hu : u ∈ x.dedup) :
    1 ≤ x.count u := by
  have hx : u ∈ x := List.mem_dedup.mp hu
  have := List.count_pos_iff.mpr hx
  omega

theorem tie_terms_filter_sum (l : List ℕ) (h : ∀ q ∈ l, 1 ≤ q) :
    ((l.filter (fun q => 2 ≤ q)).map
        (fun q : ℕ => (q : ℚ) * ((q : ℚ) - 1) * (2 * (q : ℚ) + 5))).sum
      = (l.map (fun q : ℕ => (q : ℚ) * ((q : ℚ) - 1) * (2 * (q : ℚ) + 5))).sum := by
  induction l with
  | nil => simp
  | cons a t ih =>
    have ht : ∀ q ∈ t, 1 ≤ q := fun q hq => h q (List.mem_cons_of_mem a hq)
    by_cases h2 : 2 ≤ a
    · simp [List.filter_cons, h2, ih ht]
    · have ha1 : a = 1 := by
        have := h a (List.mem_cons_self a t)
        omega
      subst ha1
      simp [List.filter_cons, ih ht]

theorem mk_score_variance_eq_spec (x : List ℚ) :
    mk_score_variance x = spec_score_variance x := by
  by_cases h : x.length = x.dedup.length
  · have hded : x.dedup = x := (List.dedup_sublist x).eq_of_length h.symm
    have hnodup : x.Nodup := List.dedup_eq_self.mp hded
    have hts : tie_group_sizes x = [] := by
      rw [tie_group_sizes, List.filter_eq_nil_iff]
      intro q hq
      simp only [List.mem_map] at hq
      obtain ⟨u, hu, rfl⟩ := hq
      have h1 : x.count u = 1 :=
        List.count_eq_one_of_mem hnodup (List.mem_dedup.mp hu)
      simp [h1]
    simp only [mk_score_variance, spec_score_variance]
    rw [if_pos h, hts]
    simp
  · have hle : ∀ q ∈ x.dedup.map (fun u => x.count u), 1 ≤ q := by
      intro q hq
      simp only [List.mem_map] at hq
      obtain ⟨u, hu, rfl⟩ := hq
      exact count_one_le_of_mem_dedup x u hu
    simp only [mk_score_variance, spec_score_variance, tie_group_sizes]
    rw [if_neg h]
    rw [tie_terms_filter_sum _ hle]
    rw [List.map_map, List.map_map]
    rfl

/-- C1: for every series of length at least 2, mk_score_variance equals
(n(n-1)(2n+5) - sum over tie groups of q(q-1)(2q+5)) / 18; when no value
repeats it equals n(n-1)(2n+5)/18, and on [1, 1, 2, 3, 3, 3] it equals
(510 - 84)/18. -/
theorem mk_score_variance_formula :
    (∀ x : List ℚ, 2 ≤ x.length → mk_score_variance x = spec_score_variance x) ∧
    (∀ x : List ℚ, 2 ≤ x.length → x.Nodup →
      mk_score_variance x =
        ((x.length : ℚ) * ((x.length : ℚ) - 1) * (2 * (x.length : ℚ) + 5)) / 18) ∧
    mk_score_variance [1, 1, 2, 3, 3, 3] = (510 - 84) / 18 := by
  refine ⟨fun x _ => mk_score_variance_eq_spec x, fun x _ hnd => ?_, ?_⟩
  · have hded : x.dedup = x := List.dedup_eq_self.mpr hnd
    have hlen : x.length = x.dedup.length := by rw [hded]
    simp only [mk_score_variance]
    rw [if_pos hlen]
  · simp [mk_score_variance, List.dedup_cons_of_mem, List.dedup_cons_of_not_mem,
      List.count_cons]
    norm_num

/-- Witness for C1 on [1, 2]: the tie-corrected formula and the no-tie
formula both give 2*1*9/18 = 1. -/
theorem mk_score_variance_formula_witness :
    mk_score_variance [1, 2] = spec_score_variance [1, 2] ∧
      mk_score_variance [1, 2] = 1 := by
  constructor
  · exact mk_score_variance_formula.1 [1, 2] (by norm_num)
  · have h := mk_score_variance_formula.2.1 [1, 2] (by norm_num) (by decide)
    norm_num at h
    exact h

theorem range_filter_lt (n j : ℕ) (hj : j ≤ n) :
    (Finset.range n).filter (fun i => i < j) = Finset.range j := by
  ext a
  simp only [Finset.mem_filter, Finset.mem_range]
  omega

theorem mk_score_eq_spec_score (x : List ℚ) : mk_score x = spec_score x := by
  have h1 : spec_score x
      = ∑ j in Finset.range x.length, ∑ i in Finset.range j,
          np_sign (x.getD j 0 - x.getD i 0) := by
    rw [spec_score, Finset.sum_filter, Finset.sum_product, Finset.sum_comm]
    refine Finset.sum_congr rfl ?_
    intro j hj
    rw [← Finset.sum_filter, range_filter_lt _ _ (Finset.mem_range.mp hj).le]
  have h2 : mk_score x
      = ∑ j in Finset.range x.length, ∑ i in Finset.range j,
          np_sign (x.getD j 0 - x.getD i 0) := by
    rw [mk_score]
    apply Finset.sum_subset
    · intro a ha
      exact Finset.mem_range.mpr (Finset.mem_Ico.mp ha).2
    · intro a ha hna
      have ha0 : a = 0 := by
        simp only [Finset.mem_Ico, Finset.mem_range] at ha hna
        omega
      subst ha0
      simp
  rw [h2, h1]

theorem mk_score_of_pairwise_lt (x : List ℚ) (hx : List.Pairwise (fun a b => a < b) x) :
    mk_score x = ((x.length * (x.length - 1) / 2 : ℕ) : ℤ) := by
  have hterm : ∀ j ∈ Finset.Ico 1 x.length,
      (∑ i in Finset.range j, np_sign (x.getD j 0 - x.getD i 0)) = (j : ℤ) := by
    intro j hj
    have hj2 := Finset.mem_Ico.mp hj
    have hone : ∀ i ∈ Finset.range j, np_sign (x.getD j 0 - x.getD i 0) = 1 := by
      intro i hi
      have hij : i < j := Finset.mem_range.mp hi
      have hjl : j < x.length := hj2.2
      have hil : i < x.length := lt_trans hij hjl
      have hlt : x.getD i 0 < x.getD j 0 := by
        rw [List.getD_eq_getElem x 0 hil, List.getD_eq_getElem x 0 hjl]
        have hg := List.pairwise_iff_get.mp hx ⟨i, hil⟩ ⟨j, hjl⟩ (Fin.mk_lt_mk.mpr hij)
        simpa using hg
      simp only [np_sign]
      rw [if_pos (by linarith : (0 : ℚ) < x.getD j 0 - x.getD i 0)]
    rw [Finset.sum_congr rfl hone]
    simp
  rw [mk_score, Finset.sum_congr rfl hterm]
  have h0 : (∑ j in Finset.Ico 1 x.length, (j : ℤ))
      = ∑ j in Finset.range x.length, (j : ℤ) := by
    apply Finset.sum_subset
    · intro a ha
      exact Finset.mem_range.mpr (Finset.mem_Ico.mp ha).2
    · intro a ha hna
      have ha0 : a = 0 := by
        simp only [Finset.mem_Ico, Finset.mem_range] at ha hna
        omega
      simp [ha0]
  rw [h0, ← Nat.cast_sum, Finset.sum_range_id]

/-- C2: mk_score equals the sum over all index pairs i < j of
sign(x[j] - x[i]), and on every strictly increasing series it equals
n(n-1)/2. -/
theorem mk_score_pair_sum :
    (∀ x : List ℚ, mk_score x = spec_score x) ∧
    (∀ x : List ℚ, List.Pairwise (fun a b => a < b) x →
      mk_score x = ((x.length * (x.length - 1) / 2 : ℕ) : ℤ)) :=
  ⟨mk_score_eq_spec_score, mk_score_of_pairwise_lt⟩

/-- Witness for C2 on the strictly increasing series [1, 2, 3]:
the score is 3*2/2 = 3. -/
theorem mk_score_pair_sum_witness : mk_score [(1 : ℚ), 2, 3] = 3 := by
  have h := mk_score_pair_sum.2 [(1 : ℚ), 2, 3] (by norm_num)
  simpa using h
